import Mathlib

/-!
Verification of the glitch-deps / fracture dependency manager core
(`main.go` and its latest snapshot) against its natural-language
specification.  Go strings are modelled as `List Char`; Go maps as
association lists; network and filesystem effects are modelled by
explicit parameters (an install oracle, an environment function, a
timestamp string) and by returning the list of performed write actions.
-/

namespace GlitchDeps

/-- Strings of the Go program, modelled as lists of characters. -/
abbrev Str := List Char

/-- Coercion from Lean string literals, used for concrete test inputs. -/
def str (s : String) : Str := s.toList

/-- Substring test: does `sub` occur contiguously in `s`?  Model of Go
`strings.Contains s sub`. -/
def goContains (s sub : Str) : Bool :=
  match s with
  | [] => sub.isPrefixOf ([] : Str)
  | _ :: rest => sub.isPrefixOf s || goContains rest sub

/-- Model of Go `strings.HasSuffix s sfx`. -/
def goHasSuffix (s sfx : Str) : Bool := sfx.isSuffixOf s

/-- Model of Go `strings.HasPrefix s p` (note the argument order: the
pattern comes second, as in Go). -/
def goStartsWith (s p : Str) : Bool := p.isPrefixOf s

/-- One manifest entry (`Dependency` struct of the source).  The JSON
`private` field is called `priv` because `private` is a Lean keyword. -/
structure Dependency where
  path : Str
  source : Str
  type : Str
  assetSuffix : Str
  priv : Bool
  extract : Bool
  filename : Str
  assetName : Str
  assetExtension : Str
deriving DecidableEq, Repr

/-- One lock-file record (`LockDependency` struct of the source). -/
structure LockDependency where
  name : Str
  path : Str
  source : Str
  version : Str
  hash : Str
  type : Str
  priv : Bool
  extract : Bool
deriving DecidableEq, Repr

/-- One release asset (element of `GitHubRelease.Assets`). -/
structure Asset where
  id : Nat
  name : Str
  url : Str
deriving DecidableEq, Repr

/-- Classified failures of the binary-type asset selection code in
`installDependency`.  Each constructor corresponds to one `fmt.Errorf`
site; the payloads carry the data interpolated into the message. -/
inductive SelectError where
  | noAssetsMatchName (filter : Str)
  | noAssetsMatchExtension (filter : Str)
  | noAssetsMatchSuffix (filter : Str)
  | ambiguousAssetMatch (names : List Str)
  | missingRequiredSuffix (candidates : List Str)
deriving DecidableEq, Repr

/-- Model of the extension normalisation in `installDependency`:
`if !strings.HasPrefix(extension, ".") { extension = "." + extension }`. -/
def normalizeExtension (e : Str) : Str :=
  if goStartsWith e (str ".") then e else '.' :: e

/-- Stage 1 of asset selection (`asset_name` filter): keep assets whose
name contains the substring; a set filter with zero survivors is an
error.  Mirrors the `dep.AssetName != ""` block of `installDependency`. -/
def stageName (dep : Dependency) (assets : List Asset) :
    Except SelectError (List Asset) :=
  if dep.assetName ≠ [] then
    if (assets.filter (fun a => goContains a.name dep.assetName)).isEmpty then
      .error (.noAssetsMatchName dep.assetName)
    else .ok (assets.filter (fun a => goContains a.name dep.assetName))
  else .ok assets

/-- Stage 2 of asset selection (`asset_extension` filter): normalise the
extension by prepending a dot if absent, keep assets whose name ends
with it.  Mirrors the `dep.AssetExtension != ""` block. -/
def stageExtension (dep : Dependency) (assets : List Asset) :
    Except SelectError (List Asset) :=
  if dep.assetExtension ≠ [] then
    if (assets.filter (fun a =>
        goHasSuffix a.name (normalizeExtension dep.assetExtension))).isEmpty then
      .error (.noAssetsMatchExtension dep.assetExtension)
    else .ok (assets.filter (fun a =>
        goHasSuffix a.name (normalizeExtension dep.assetExtension)))
  else .ok assets

/-- Stage 3 plus final dispatch of the binary-type asset selection in
`installDependency`: with a suffix filter, zero matches / one match /
many matches give the three outcomes of the source; without a suffix
filter the source unconditionally fails, listing the names of the
current candidate set. -/
def suffixStage (dep : Dependency) (c2 : List Asset) : Except SelectError Asset :=
  if dep.assetSuffix ≠ [] then
    match c2.filter (fun a => goContains a.name dep.assetSuffix) with
    | [] => .error (.noAssetsMatchSuffix dep.assetSuffix)
    | a :: rest =>
      if rest.isEmpty then .ok a
      else .error (.ambiguousAssetMatch ((a :: rest).map (fun x => x.name)))
  else .error (.missingRequiredSuffix (c2.map (fun x => x.name)))

/-- The full three-stage asset selection of the binary branch of
`installDependency`, stages sequenced exactly as in the source. -/
def selectAsset (dep : Dependency) (assets : List Asset) :
    Except SelectError Asset :=
  (stageName dep assets).bind (fun c1 =>
    (stageExtension dep c1).bind (fun c2 => suffixStage dep c2))

/-- The candidate set after the `asset_name` filter, ignoring the
empty-result error (used to state theorems about the later stages). -/
def candidatesAfterName (dep : Dependency) (assets : List Asset) : List Asset :=
  if dep.assetName ≠ [] then assets.filter (fun a => goContains a.name dep.assetName)
  else assets

/-- The candidate set after both the `asset_name` and `asset_extension`
filters, ignoring the empty-result errors. -/
def candidatesAfterExt (dep : Dependency) (assets : List Asset) : List Asset :=
  if dep.assetExtension ≠ [] then
    (candidatesAfterName dep assets).filter
      (fun a => goHasSuffix a.name (normalizeExtension dep.assetExtension))
  else candidatesAfterName dep assets

/-- The assets of the final candidate set whose name contains the
`asset_suffix` substring. -/
def suffixMatches (dep : Dependency) (assets : List Asset) : List Asset :=
  (candidatesAfterExt dep assets).filter (fun a => goContains a.name dep.assetSuffix)

theorem stageName_ok (dep : Dependency) (assets : List Asset)
    (h : candidatesAfterName dep assets ≠ []) :
    stageName dep assets = .ok (candidatesAfterName dep assets) := by
  unfold candidatesAfterName at h ⊢
  unfold stageName
  by_cases hn : dep.assetName ≠ []
  · simp only [if_pos hn] at h ⊢
    cases hl : assets.filter (fun a => goContains a.name dep.assetName) with
    | nil => rw [hl] at h; exact absurd rfl h
    | cons a t => rfl
  · simp only [if_neg hn]

theorem stageExtension_ok (dep : Dependency) (assets : List Asset)
    (h : (if dep.assetExtension ≠ [] then
        assets.filter (fun a => goHasSuffix a.name (normalizeExtension dep.assetExtension))
      else assets) ≠ []) :
    stageExtension dep assets = .ok (if dep.assetExtension ≠ [] then
        assets.filter (fun a => goHasSuffix a.name (normalizeExtension dep.assetExtension))
      else assets) := by
  unfold stageExtension
  by_cases hn : dep.assetExtension ≠ []
  · simp only [if_pos hn] at h ⊢
    cases hl : assets.filter
        (fun a => goHasSuffix a.name (normalizeExtension dep.assetExtension)) with
    | nil => rw [hl] at h; exact absurd rfl h
    | cons a t => rfl
  · simp only [if_neg hn]

/-- When the candidate set after both optional filters is nonempty, the
selection reaches the suffix stage with exactly that candidate set. -/
theorem selectAsset_reaches_suffix_stage (dep : Dependency) (assets : List Asset)
    (h : candidatesAfterExt dep assets ≠ []) :
    selectAsset dep assets = suffixStage dep (candidatesAfterExt dep assets) := by
  have hname : candidatesAfterName dep assets ≠ [] := by
    intro he
    apply h
    unfold candidatesAfterExt
    rw [he]
    by_cases hx : dep.assetExtension ≠ [] <;> simp [hx]
  have hcand : (if dep.assetExtension ≠ [] then
      (candidatesAfterName dep assets).filter
        (fun a => goHasSuffix a.name (normalizeExtension dep.assetExtension))
    else candidatesAfterName dep assets) = candidatesAfterExt dep assets := rfl
  have hext := stageExtension_ok dep (candidatesAfterName dep assets)
    (by rw [hcand]; exact h)
  rw [hcand] at hext
  unfold selectAsset
  rw [stageName_ok dep assets hname]
  simp only [Except.bind]
  rw [hext]

theorem candidatesAfterName_perm (dep : Dependency) {assets assets' : List Asset}
    (hperm : assets.Perm assets') :
    (candidatesAfterName dep assets).Perm (candidatesAfterName dep assets') := by
  unfold candidatesAfterName
  by_cases hn : dep.assetName ≠ []
  · simp only [if_pos hn]
    exact hperm.filter _
  · simp only [if_neg hn]
    exact hperm

theorem candidatesAfterExt_perm (dep : Dependency) {assets assets' : List Asset}
    (hperm : assets.Perm assets') :
    (candidatesAfterExt dep assets).Perm (candidatesAfterExt dep assets') := by
  unfold candidatesAfterExt
  by_cases hx : dep.assetExtension ≠ []
  · simp only [if_pos hx]
    exact (candidatesAfterName_perm dep hperm).filter _
  · simp only [if_neg hx]
    exact candidatesAfterName_perm dep hperm

theorem suffixMatches_perm (dep : Dependency) {assets assets' : List Asset}
    (hperm : assets.Perm assets') :
    (suffixMatches dep assets).Perm (suffixMatches dep assets') :=
  (candidatesAfterExt_perm dep hperm).filter _

/-- With a suffix filter set and at least two suffix matches among the
candidates, selection fails with the ambiguity error listing exactly the
names of all matching assets. -/
theorem selectAsset_ambiguous (dep : Dependency) (assets : List Asset)
    (hsfx : dep.assetSuffix ≠ [])
    (h2 : 2 ≤ (suffixMatches dep assets).length) :
    selectAsset dep assets =
      .error (.ambiguousAssetMatch ((suffixMatches dep assets).map (fun x => x.name))) := by
  have hmne : suffixMatches dep assets ≠ [] := by
    intro he
    rw [he] at h2
    exact absurd h2 (by simp)
  have hcne : candidatesAfterExt dep assets ≠ [] := by
    intro he
    apply hmne
    unfold suffixMatches
    rw [he]
    rfl
  rw [selectAsset_reaches_suffix_stage dep assets hcne]
  unfold suffixStage
  rw [if_pos hsfx]
  have hsm : (candidatesAfterExt dep assets).filter
      (fun a => goContains a.name dep.assetSuffix) = suffixMatches dep assets := rfl
  rw [hsm]
  cases hm : suffixMatches dep assets with
  | nil => rw [hm] at hmne; exact absurd rfl hmne
  | cons a rest =>
    cases rest with
    | nil => rw [hm] at h2; exact absurd h2 (by simp)
    | cons b t => rfl

/-- C3: for a binary-typed entry with an `asset_suffix` filter and more
than one candidate asset containing that suffix, selection fails with an
ambiguity error listing every matching asset name (it never picks one),
and any reordering of the asset list still yields the ambiguity error
with the same multiset of names. -/
theorem ambiguous_suffix_never_picks (dep : Dependency) (assets assets' : List Asset)
    (hsfx : dep.assetSuffix ≠ [])
    (hperm : assets.Perm assets')
    (h2 : 2 ≤ (suffixMatches dep assets).length) :
    selectAsset dep assets =
      .error (.ambiguousAssetMatch ((suffixMatches dep assets).map (fun x => x.name)))
    ∧ ∃ ns, selectAsset dep assets' = .error (.ambiguousAssetMatch ns)
        ∧ ns.Perm ((suffixMatches dep assets).map (fun x => x.name)) := by
  have hm' := suffixMatches_perm dep hperm
  have h2' : 2 ≤ (suffixMatches dep assets').length := by
    rw [← hm'.length_eq]
    exact h2
  refine ⟨selectAsset_ambiguous dep assets hsfx h2,
    (suffixMatches dep assets').map (fun x => x.name),
    selectAsset_ambiguous dep assets' hsfx h2', ?_⟩
  exact (hm'.map _).symm

/-- C2: for a binary-typed entry whose `asset_suffix` filter is absent,
selection never returns an asset (in particular it never defaults to the
first one), and whenever the earlier optional filters leave a nonempty
candidate set — including a single-asset release — the failure is the
`missingRequiredSuffix` error enumerating the candidate asset names. -/
theorem missing_suffix_always_fails (dep : Dependency) (assets : List Asset)
    (hsfx : dep.assetSuffix = []) :
    (∀ a, selectAsset dep assets ≠ .ok a)
    ∧ (candidatesAfterExt dep assets ≠ [] →
        selectAsset dep assets = .error (.missingRequiredSuffix
          ((candidatesAfterExt dep assets).map (fun x => x.name)))) := by
  constructor
  · intro a
    unfold selectAsset
    generalize stageName dep assets = r1
    cases r1 with
    | error e => simp [Except.bind]
    | ok c1 =>
      simp only [Except.bind]
      generalize stageExtension dep c1 = r2
      cases r2 with
      | error e => simp
      | ok c2 =>
        unfold suffixStage
        simp [hsfx]
  · intro hne
    rw [selectAsset_reaches_suffix_stage dep assets hne]
    unfold suffixStage
    simp [hsfx]

/-- Concrete binary entry with no `asset_suffix`, for the C2 witness. -/
def depNoSuffix : Dependency :=
  { path := str "bin/tool", source := str "https://github.com/o/r.git",
    type := str "binary", assetSuffix := [], priv := false, extract := false,
    filename := [], assetName := [], assetExtension := [] }

/-- A release carrying exactly one asset, for the C2 witness. -/
def oneAssetRelease : List Asset :=
  [{ id := 1, name := str "tool_linux_amd64.tar.gz", url := str "u1" }]

theorem missing_suffix_always_fails_witness :
    selectAsset depNoSuffix oneAssetRelease =
      .error (.missingRequiredSuffix [str "tool_linux_amd64.tar.gz"]) := by
  have h := (missing_suffix_always_fails depNoSuffix oneAssetRelease rfl).2 (by decide)
  exact h

/-- Concrete binary entry with the ambiguous suffix `amd64`, for the C3
witness (the scenario of the specification). -/
def depAmbiguous : Dependency :=
  { path := str "bin/tool", source := str "https://github.com/o/r.git",
    type := str "binary", assetSuffix := str "amd64", priv := false, extract := false,
    filename := [], assetName := [], assetExtension := [] }

/-- The two-asset release of the specification scenario. -/
def twoAssetRelease : List Asset :=
  [{ id := 1, name := str "tool_linux_amd64.tar.gz", url := str "u1" },
   { id := 2, name := str "tool_windows_amd64.zip", url := str "u2" }]

theorem ambiguous_suffix_never_picks_witness :
    selectAsset depAmbiguous twoAssetRelease =
      .error (.ambiguousAssetMatch
        [str "tool_linux_amd64.tar.gz", str "tool_windows_amd64.zip"])
    ∧ ∃ ns, selectAsset depAmbiguous twoAssetRelease.reverse =
        .error (.ambiguousAssetMatch ns)
        ∧ ns.Perm [str "tool_linux_amd64.tar.gz", str "tool_windows_amd64.zip"] := by
  have h := ambiguous_suffix_never_picks depAmbiguous twoAssetRelease twoAssetRelease.reverse
    (by decide) (List.reverse_perm _).symm (by decide)
  exact h

/-- Lookup in a Go map modelled as an association list
(`m[k]` with the `, exists` form returning `Option`). -/
def mapLookup {β : Type} (m : List (Str × β)) (k : Str) : Option β :=
  (m.find? (fun p => p.1 == k)).map (fun p => p.2)

/-- Assignment `m[k] = v` on a Go map modelled as an association list. -/
def mapInsert {β : Type} (m : List (Str × β)) (k : Str) (v : β) : List (Str × β) :=
  (k, v) :: m.filter (fun p => !(p.1 == k))

theorem mapLookup_cons {β : Type} (k n : Str) (v : β) (m : List (Str × β)) :
    mapLookup ((k, v) :: m) n = if k = n then some v else mapLookup m n := by
  unfold mapLookup
  by_cases hk : k = n
  · simp [List.find?, hk]
  · have : ((k, v).1 == n) = false := by
      simp only [beq_eq_false_iff_ne]
      exact hk
    simp [List.find?, this, hk]

/-- Processing of one manifest entry inside the `Install` loop: a failed
install leaves the accumulator unchanged (the `continue`); a successful
one is inserted into the fresh lock map being built, and the previously
loaded lock file is consulted only for the `hasUpdates` notice flag. -/
def installStep (oldLock : List (Str × LockDependency))
    (inst : Str → Dependency → Option LockDependency)
    (acc : List (Str × LockDependency) × Bool) (nd : Str × Dependency) :
    List (Str × LockDependency) × Bool :=
  match inst nd.1 nd.2 with
  | none => acc
  | some ld =>
    ((nd.1, ld) :: acc.1,
      match mapLookup oldLock nd.1 with
      | none => true
      | some old => if old.hash = ld.hash then acc.2 else true)

/-- The bulk `Install` command after loading the manifest and the prior
lock file: it starts from an empty lock map (`newLock := make(LockFile)`),
folds over the manifest entries, and the resulting map is what
`saveLockFile` writes.  The installation of a single entry (network and
filesystem work of `installDependency`) is the oracle `inst`; `none`
models a failed install. -/
def installRun (deps : List (Str × Dependency))
    (oldLock : List (Str × LockDependency))
    (inst : Str → Dependency → Option LockDependency) :
    List (Str × LockDependency) × Bool :=
  deps.foldl (installStep oldLock inst) ([], false)

theorem installRun_aux (oldLock : List (Str × LockDependency))
    (inst : Str → Dependency → Option LockDependency) (n : Str) :
    ∀ (deps : List (Str × Dependency)) (acc : List (Str × LockDependency) × Bool),
      (∀ p ∈ deps, p.1 ≠ n) → mapLookup acc.1 n = none →
      mapLookup (deps.foldl (installStep oldLock inst) acc).1 n = none := by
  intro deps
  induction deps with
  | nil => intro acc _ hacc; exact hacc
  | cons nd rest ih =>
    intro acc h hacc
    rw [List.foldl_cons]
    refine ih (installStep oldLock inst acc nd) (fun p hp => h p (List.mem_cons_of_mem nd hp)) ?_
    unfold installStep
    cases inst nd.1 nd.2 with
    | none => exact hacc
    | some ld =>
      have hne : nd.1 ≠ n := h nd (List.mem_cons_self nd rest)
      rw [mapLookup_cons, if_neg hne]
      exact hacc

/-- C1 amended: the lock file written at the end of a bulk `install` run
contains only entries of the current manifest; a lock entry whose name
does not appear in the manifest is pruned from the written file (it is
the bulk `update` command, not `install`, that preserves such entries). -/
theorem install_prunes_unmanaged_entries (deps : List (Str × Dependency))
    (oldLock : List (Str × LockDependency))
    (inst : Str → Dependency → Option LockDependency) (n : Str)
    (h : ∀ p ∈ deps, p.1 ≠ n) :
    mapLookup (installRun deps oldLock inst).1 n = none :=
  installRun_aux oldLock inst n deps ([], false) h rfl

/-- Concrete lock record used in the C1 counterexample and witness. -/
def ghostLock : LockDependency :=
  { name := str "ghost", path := str "libs/ghost", source := str "https://github.com/o/g.git",
    version := str "v1", hash := str "v1", type := str "repository",
    priv := false, extract := false }

/-- C1 counterexample: with an empty manifest and a prior lock file
containing the entry `ghost`, the lock map that `Install` saves no
longer contains `ghost` — the entry absent from the manifest is pruned,
not left untouched as the claim states. -/
theorem install_prunes_cex :
    mapLookup [(str "ghost", ghostLock)] (str "ghost") = some ghostLock
    ∧ mapLookup (installRun [] [(str "ghost", ghostLock)] (fun _ _ => none)).1
        (str "ghost") = none
    ∧ (some ghostLock ≠ (none : Option LockDependency)) :=
  ⟨rfl, rfl, by decide⟩

theorem install_prunes_unmanaged_entries_witness :
    mapLookup (installRun [(str "tool", depNoSuffix)]
      [(str "ghost", ghostLock)] (fun _ _ => none)).1 (str "ghost") = none :=
  install_prunes_unmanaged_entries [(str "tool", depNoSuffix)]
    [(str "ghost", ghostLock)] (fun _ _ => none) (str "ghost") (by decide)

/-- Version/hash overwrite performed by the targeted `Update` branch
when the caller supplied an explicit version argument
(`if version != "" { lockDep.Version = version; lockDep.Hash = version }`). -/
def overrideVersion (version : Str) (ld : LockDependency) : LockDependency :=
  if version ≠ [] then { ld with version := version, hash := version } else ld

/-- Targeted branch of the `Update` command: look the entry up in the
manifest, run the ordinary installation (the oracle `inst`, which
receives only the entry name and the manifest entry — the caller-supplied
version is never passed to it), then overwrite the version and hash
fields of the produced lock record if a version argument was given, and
store the record in the lock map. -/
def updateTargeted (deps : List (Str × Dependency))
    (lock : List (Str × LockDependency)) (name version : Str)
    (inst : Str → Dependency → Except Str LockDependency) :
    Except Str (List (Str × LockDependency)) :=
  match mapLookup deps name with
  | none => .error (str "dependency not found")
  | some dep =>
    match inst name dep with
    | .error e => .error e
    | .ok ld => .ok (mapInsert lock name (overrideVersion version ld))

/-- C10: a targeted update with an explicit version argument performs
exactly the same installation as one without it (same oracle call on the
same manifest entry, hence the same artifact fetched to the same place);
the version argument only overwrites the `version` and `hash` fields of
the lock record that is saved, leaving every other field unchanged. -/
theorem update_version_only_rewrites_lock (deps : List (Str × Dependency))
    (lock : List (Str × LockDependency)) (name version : Str)
    (inst : Str → Dependency → Except Str LockDependency)
    (hv : version ≠ [])
    (dep : Dependency) (hdep : mapLookup deps name = some dep)
    (ld : LockDependency) (hinst : inst name dep = .ok ld) :
    updateTargeted deps lock name version inst =
      .ok (mapInsert lock name { ld with version := version, hash := version })
    ∧ updateTargeted deps lock name [] inst = .ok (mapInsert lock name ld)
    ∧ (overrideVersion version ld).path = ld.path
    ∧ (overrideVersion version ld).source = ld.source
    ∧ (overrideVersion version ld).type = ld.type
    ∧ (overrideVersion version ld).name = ld.name
    ∧ (overrideVersion version ld).priv = ld.priv
    ∧ (overrideVersion version ld).extract = ld.extract
    ∧ (overrideVersion version ld).version = version
    ∧ (overrideVersion version ld).hash = version := by
  unfold updateTargeted
  simp only [hdep, hinst]
  unfold overrideVersion
  rw [if_pos hv]
  refine ⟨rfl, ?_, rfl, rfl, rfl, rfl, rfl, rfl, rfl, rfl⟩
  simp

theorem update_version_only_rewrites_lock_witness :
    updateTargeted [(str "ghost", depNoSuffix)] [] (str "ghost") (str "v9")
      (fun _ _ => .ok ghostLock) =
      .ok (mapInsert [] (str "ghost")
        { ghostLock with version := str "v9", hash := str "v9" })
    ∧ updateTargeted [(str "ghost", depNoSuffix)] [] (str "ghost") []
      (fun _ _ => .ok ghostLock) = .ok (mapInsert [] (str "ghost") ghostLock)
    ∧ (overrideVersion (str "v9") ghostLock).path = ghostLock.path
    ∧ (overrideVersion (str "v9") ghostLock).source = ghostLock.source
    ∧ (overrideVersion (str "v9") ghostLock).type = ghostLock.type
    ∧ (overrideVersion (str "v9") ghostLock).name = ghostLock.name
    ∧ (overrideVersion (str "v9") ghostLock).priv = ghostLock.priv
    ∧ (overrideVersion (str "v9") ghostLock).extract = ghostLock.extract
    ∧ (overrideVersion (str "v9") ghostLock).version = str "v9"
    ∧ (overrideVersion (str "v9") ghostLock).hash = str "v9" :=
  update_version_only_rewrites_lock [(str "ghost", depNoSuffix)] [] (str "ghost")
    (str "v9") (fun _ _ => .ok ghostLock) (by decide) depNoSuffix (by decide)
    ghostLock rfl

/-- Splitting a path at `/` separators, model of Go `strings.Split p "/"`
as used by `filepath.Clean` on unix. -/
def splitSlash : Str → List Str
  | [] => [[]]
  | c :: rest =>
    if c = '/' then [] :: splitSlash rest
    else
      match splitSlash rest with
      | [] => [[c]]
      | g :: gs => (c :: g) :: gs

/-- Segment-stack processing of Go `path/filepath.Clean` (unix rules):
empty and `.` segments are dropped, `..` pops the last real segment, a
`..` at the top is dropped when the path is rooted and kept otherwise. -/
def cleanSegs (rooted : Bool) : List Str → List Str → List Str
  | [], acc => acc.reverse
  | seg :: rest, acc =>
    if seg = [] ∨ seg = ['.'] then cleanSegs rooted rest acc
    else if seg = ['.', '.'] then
      match acc with
      | [] => if rooted then cleanSegs rooted rest [] else cleanSegs rooted rest [['.', '.']]
      | a :: acc' =>
        if a = ['.', '.'] then cleanSegs rooted rest (seg :: a :: acc')
        else cleanSegs rooted rest acc'
    else cleanSegs rooted rest (seg :: acc)

/-- Model of Go `path/filepath.Clean` for unix paths: lexical
normalisation by segment processing. -/
def goClean (p : Str) : Str :=
  if p = [] then ['.']
  else
    match List.intercalate ['/'] (cleanSegs (goStartsWith p ['/']) (splitSlash p) []) with
    | body =>
      if goStartsWith p ['/'] then '/' :: body
      else if body = [] then ['.'] else body

/-- Model of Go `filepath.Join(a, b)`: empty elements are dropped, the
rest joined with `/` and cleaned; all-empty input yields the empty path. -/
def goJoin (a b : Str) : Str :=
  if a = [] then (if b = [] then [] else goClean b)
  else if b = [] then goClean a
  else goClean (a ++ '/' :: b)

/-- Typeflag of a tar header, collapsed to the three classes the
extraction loop distinguishes: directories, regular files, and
everything else (symlinks, hard links, devices, ...), which falls
through the `switch` untouched. -/
inductive TarType where
  | dir
  | reg
  | other
deriving DecidableEq, Repr

/-- One tar archive entry as seen by `extractTarReader`: its header name
and typeflag class. -/
structure TarEntry where
  name : Str
  typ : TarType
deriving DecidableEq, Repr

/-- The containment check of `extractTarReader` and `extractZip`:
`strings.HasPrefix(targetPath, filepath.Clean(targetDir)+"/")`. -/
def insideTarget (targetDir p : Str) : Bool :=
  goStartsWith p (goClean targetDir ++ ['/'])

/-- The loop of `extractTarReader` over the archive entries, returning
the target paths written to disk (paired with `true` for directories)
and `some message` if the loop aborted with an error.  Directory entries
are created, regular files are written, and any other typeflag falls
through the `switch` without touching the disk — but the path check runs
before the `switch` for every entry and aborts the whole extraction. -/
def extractTarGo (targetDir : Str) : List TarEntry → List (Str × Bool) × Option Str
  | [] => ([], none)
  | e :: rest =>
    if insideTarget targetDir (goJoin targetDir e.name) then
      match e.typ with
      | .dir => ((goJoin targetDir e.name, true) :: (extractTarGo targetDir rest).1,
                 (extractTarGo targetDir rest).2)
      | .reg => ((goJoin targetDir e.name, false) :: (extractTarGo targetDir rest).1,
                 (extractTarGo targetDir rest).2)
      | .other => extractTarGo targetDir rest
    else ([], some (str "invalid file path: " ++ e.name))

/-- One zip archive entry as seen by `extractZip`: its name and whether
its file info reports a directory. -/
structure ZipEntry where
  name : Str
  isDir : Bool
deriving DecidableEq, Repr

/-- The loop of `extractZip` over the archive entries: same containment
check as the tar loop, then every entry (directory or file) is
materialised. -/
def extractZipGo (targetDir : Str) : List ZipEntry → List (Str × Bool) × Option Str
  | [] => ([], none)
  | e :: rest =>
    if insideTarget targetDir (goJoin targetDir e.name) then
      ((goJoin targetDir e.name, e.isDir) :: (extractZipGo targetDir rest).1,
       (extractZipGo targetDir rest).2)
    else ([], some (str "invalid file path: " ++ e.name))

theorem extractTarGo_writes_inside (targetDir : Str) (es : List TarEntry) :
    ∀ w ∈ (extractTarGo targetDir es).1, insideTarget targetDir w.1 = true := by
  induction es with
  | nil => intro w hw; exact absurd hw (by simp [extractTarGo])
  | cons e rest ih =>
    intro w hw
    unfold extractTarGo at hw
    by_cases hin : insideTarget targetDir (goJoin targetDir e.name) = true
    · rw [if_pos hin] at hw
      cases htyp : e.typ with
      | dir =>
        rw [htyp] at hw
        simp only at hw
        rcases List.mem_cons.mp hw with hh | ht
        · rw [hh]; exact hin
        · exact ih w ht
      | reg =>
        rw [htyp] at hw
        simp only at hw
        rcases List.mem_cons.mp hw with hh | ht
        · rw [hh]; exact hin
        · exact ih w ht
      | other =>
        rw [htyp] at hw
        exact ih w hw
    · rw [if_neg hin] at hw
      exact absurd hw (by simp)

theorem extractTarGo_aborts_on_escape (targetDir : Str) (es : List TarEntry)
    (h : ∃ e ∈ es, insideTarget targetDir (goJoin targetDir e.name) = false) :
    ∃ e ∈ es, insideTarget targetDir (goJoin targetDir e.name) = false
      ∧ (extractTarGo targetDir es).2 = some (str "invalid file path: " ++ e.name) := by
  induction es with
  | nil => rcases h with ⟨e, he, _⟩; exact absurd he (by simp)
  | cons e rest ih =>
    by_cases hin : insideTarget targetDir (goJoin targetDir e.name) = true
    · have hrest : ∃ x ∈ rest, insideTarget targetDir (goJoin targetDir x.name) = false := by
        rcases h with ⟨x, hx, hxf⟩
        rcases List.mem_cons.mp hx with hh | ht
        · rw [hh] at hxf; rw [hxf] at hin; exact absurd hin (by simp)
        · exact ⟨x, ht, hxf⟩
      rcases ih hrest with ⟨x, hx, hxf, hres⟩
      refine ⟨x, List.mem_cons_of_mem e hx, hxf, ?_⟩
      unfold extractTarGo
      rw [if_pos hin]
      cases e.typ with
      | dir => exact hres
      | reg => exact hres
      | other => exact hres
    · have hinf : insideTarget targetDir (goJoin targetDir e.name) = false := by
        cases hcase : insideTarget targetDir (goJoin targetDir e.name) with
        | true => exact absurd hcase hin
        | false => rfl
      refine ⟨e, List.mem_cons_self e rest, hinf, ?_⟩
      unfold extractTarGo
      rw [if_neg hin]

theorem extractZipGo_writes_inside (targetDir : Str) (es : List ZipEntry) :
    ∀ w ∈ (extractZipGo targetDir es).1, insideTarget targetDir w.1 = true := by
  induction es with
  | nil => intro w hw; exact absurd hw (by simp [extractZipGo])
  | cons e rest ih =>
    intro w hw
    unfold extractZipGo at hw
    by_cases hin : insideTarget targetDir (goJoin targetDir e.name) = true
    · rw [if_pos hin] at hw
      simp only at hw
      rcases List.mem_cons.mp hw with hh | ht
      · rw [hh]; exact hin
      · exact ih w ht
    · rw [if_neg hin] at hw
      exact absurd hw (by simp)

theorem extractZipGo_aborts_on_escape (targetDir : Str) (es : List ZipEntry)
    (h : ∃ e ∈ es, insideTarget targetDir (goJoin targetDir e.name) = false) :
    ∃ e ∈ es, insideTarget targetDir (goJoin targetDir e.name) = false
      ∧ (extractZipGo targetDir es).2 = some (str "invalid file path: " ++ e.name) := by
  induction es with
  | nil => rcases h with ⟨e, he, _⟩; exact absurd he (by simp)
  | cons e rest ih =>
    by_cases hin : insideTarget targetDir (goJoin targetDir e.name) = true
    · have hrest : ∃ x ∈ rest, insideTarget targetDir (goJoin targetDir x.name) = false := by
        rcases h with ⟨x, hx, hxf⟩
        rcases List.mem_cons.mp hx with hh | ht
        · rw [hh] at hxf; rw [hxf] at hin; exact absurd hin (by simp)
        · exact ⟨x, ht, hxf⟩
      rcases ih hrest with ⟨x, hx, hxf, hres⟩
      refine ⟨x, List.mem_cons_of_mem e hx, hxf, ?_⟩
      unfold extractZipGo
      rw [if_pos hin]
      exact hres
    · have hinf : insideTarget targetDir (goJoin targetDir e.name) = false := by
        cases hcase : insideTarget targetDir (goJoin targetDir e.name) with
        | true => exact absurd hcase hin
        | false => rfl
      refine ⟨e, List.mem_cons_self e rest, hinf, ?_⟩
      unfold extractZipGo
      rw [if_neg hin]

/-- C4: every path the tar or zip extraction loops write lies inside the
target directory (its normalised join carries `Clean(targetDir) + "/"`
as prefix — the notion of containment the code enforces), and whenever
some archive entry would escape the target after normalisation, the
extraction aborts with the path-traversal error naming such an entry. -/
theorem extraction_path_traversal_protected (targetDir : Str)
    (tarEntries : List TarEntry) (zipEntries : List ZipEntry) :
    (∀ w ∈ (extractTarGo targetDir tarEntries).1, insideTarget targetDir w.1 = true)
    ∧ ((∃ e ∈ tarEntries, insideTarget targetDir (goJoin targetDir e.name) = false) →
        ∃ e ∈ tarEntries, insideTarget targetDir (goJoin targetDir e.name) = false
          ∧ (extractTarGo targetDir tarEntries).2 =
              some (str "invalid file path: " ++ e.name))
    ∧ (∀ w ∈ (extractZipGo targetDir zipEntries).1, insideTarget targetDir w.1 = true)
    ∧ ((∃ e ∈ zipEntries, insideTarget targetDir (goJoin targetDir e.name) = false) →
        ∃ e ∈ zipEntries, insideTarget targetDir (goJoin targetDir e.name) = false
          ∧ (extractZipGo targetDir zipEntries).2 =
              some (str "invalid file path: " ++ e.name)) :=
  ⟨extractTarGo_writes_inside targetDir tarEntries,
   extractTarGo_aborts_on_escape targetDir tarEntries,
   extractZipGo_writes_inside targetDir zipEntries,
   extractZipGo_aborts_on_escape targetDir zipEntries⟩

/-- Adversarial tar archive of the C4 witness. -/
def evilTarList : List TarEntry := [⟨str "../../etc/passwd", TarType.reg⟩]

/-- Adversarial zip archive of the C4 witness. -/
def evilZipList : List ZipEntry := [⟨str "../../etc/passwd", false⟩]

theorem extraction_path_traversal_protected_witness :
    (∀ w ∈ (extractTarGo (str "pkg") evilTarList).1, insideTarget (str "pkg") w.1 = true)
    ∧ ((∃ e ∈ evilTarList, insideTarget (str "pkg") (goJoin (str "pkg") e.name) = false) →
        ∃ e ∈ evilTarList, insideTarget (str "pkg") (goJoin (str "pkg") e.name) = false
          ∧ (extractTarGo (str "pkg") evilTarList).2 =
              some (str "invalid file path: " ++ e.name))
    ∧ (∀ w ∈ (extractZipGo (str "pkg") evilZipList).1, insideTarget (str "pkg") w.1 = true)
    ∧ ((∃ e ∈ evilZipList, insideTarget (str "pkg") (goJoin (str "pkg") e.name) = false) →
        ∃ e ∈ evilZipList, insideTarget (str "pkg") (goJoin (str "pkg") e.name) = false
          ∧ (extractZipGo (str "pkg") evilZipList).2 =
              some (str "invalid file path: " ++ e.name)) :=
  extraction_path_traversal_protected (str "pkg") evilTarList evilZipList

theorem extractTarGo_ok_writes (targetDir : Str) (es : List TarEntry)
    (hok : (extractTarGo targetDir es).2 = none) :
    (extractTarGo targetDir es).1 = es.filterMap (fun e =>
      match e.typ with
      | TarType.dir => some (goJoin targetDir e.name, true)
      | TarType.reg => some (goJoin targetDir e.name, false)
      | TarType.other => none) := by
  induction es with
  | nil => rfl
  | cons e rest ih =>
    unfold extractTarGo at hok ⊢
    rw [List.filterMap_cons]
    by_cases hin : insideTarget targetDir (goJoin targetDir e.name) = true
    · rw [if_pos hin] at hok ⊢
      cases htyp : e.typ with
      | dir =>
        rw [htyp] at hok
        simp only [] at hok ⊢
        rw [ih hok]
      | reg =>
        rw [htyp] at hok
        simp only [] at hok ⊢
        rw [ih hok]
      | other =>
        rw [htyp] at hok
        simp only [] at hok ⊢
        exact ih hok
    · rw [if_neg hin] at hok
      exact absurd hok (by simp)

/-- C9 amended: during tar extraction, an archive entry that is neither
a directory nor a regular file is silently skipped — nothing written for
it, no error from it, extraction succeeds — provided its name passes the
path containment check, which the loop runs before the typeflag
dispatch for every entry. -/
theorem tar_skips_special_entries (targetDir : Str) (es : List TarEntry)
    (hall : ∀ e ∈ es, insideTarget targetDir (goJoin targetDir e.name) = true) :
    (extractTarGo targetDir es).2 = none
    ∧ (extractTarGo targetDir es).1 = es.filterMap (fun e =>
        match e.typ with
        | TarType.dir => some (goJoin targetDir e.name, true)
        | TarType.reg => some (goJoin targetDir e.name, false)
        | TarType.other => none) := by
  have hok : (extractTarGo targetDir es).2 = none := by
    induction es with
    | nil => rfl
    | cons e rest ih =>
      unfold extractTarGo
      rw [if_pos (hall e (List.mem_cons_self e rest))]
      have hrest := ih (fun x hx => hall x (List.mem_cons_of_mem e hx))
      cases e.typ with
      | dir => exact hrest
      | reg => exact hrest
      | other => exact hrest
  exact ⟨hok, extractTarGo_ok_writes targetDir es hok⟩

/-- A tar archive with a directory, a symlink-class entry and a regular
file, for the C9 witness. -/
def mixedTarList : List TarEntry :=
  [⟨str "bin", TarType.dir⟩, ⟨str "bin/link", TarType.other⟩,
   ⟨str "bin/tool", TarType.reg⟩]

theorem tar_skips_special_entries_witness :
    (extractTarGo (str "pkg") mixedTarList).2 = none
    ∧ (extractTarGo (str "pkg") mixedTarList).1 = mixedTarList.filterMap (fun e =>
        match e.typ with
        | TarType.dir => some (goJoin (str "pkg") e.name, true)
        | TarType.reg => some (goJoin (str "pkg") e.name, false)
        | TarType.other => none) :=
  tar_skips_special_entries (str "pkg") mixedTarList (by decide)

/-- C9 counterexample: a tar entry that is neither a directory nor a
regular file (a symlink, say) whose name escapes the target is not
silently skipped — the containment check precedes the typeflag dispatch,
so the whole extraction aborts with an error. -/
theorem tar_special_entry_error_cex :
    (extractTarGo (str "pkg") [⟨str "../x", TarType.other⟩]).2 =
      some (str "invalid file path: " ++ str "../x")
    ∧ TarType.other ≠ TarType.dir
    ∧ TarType.other ≠ TarType.reg :=
  ⟨rfl, by decide, by decide⟩

/-- Classified failures of the single-file placement mode in the binary
branch of `installDependency`. -/
inductive PlaceError where
  | unexpectedFileCount (n : Nat)
  | emptyArchive
deriving DecidableEq, Repr

/-- The single-file placement of the binary branch: with a fixed output
filename, more than one extracted regular file is the count error, zero
is the empty-archive error, and exactly one is renamed to
`Join(targetDir, dep.Filename)`.  The checks appear in exactly this
order in the source. -/
def singleFilePlace (extractedFiles : List Str) (targetDir fname : Str) :
    Except PlaceError Str :=
  if extractedFiles.length > 1 then .error (.unexpectedFileCount extractedFiles.length)
  else
    match extractedFiles with
    | [] => .error .emptyArchive
    | _ :: _ => .ok (goJoin targetDir fname)

/-- The regular files found on disk by the `filepath.Walk` over the
scratch extraction directory: the distinct regular-file paths the
extraction loop wrote. -/
def regularFilesOnDisk (targetDir : Str) (es : List TarEntry) : List Str :=
  (((extractTarGo targetDir es).1.filter (fun w => !w.2)).map (fun w => w.1)).dedup

theorem regularFilesOnDisk_eq (targetDir : Str) (es : List TarEntry)
    (hok : (extractTarGo targetDir es).2 = none)
    (hnd : ((es.filter (fun e => e.typ == TarType.reg)).map
        (fun e => goJoin targetDir e.name)).Nodup) :
    regularFilesOnDisk targetDir es =
      (es.filter (fun e => e.typ == TarType.reg)).map (fun e => goJoin targetDir e.name) := by
  unfold regularFilesOnDisk
  rw [extractTarGo_ok_writes targetDir es hok]
  have hmain : ∀ (l : List TarEntry),
      ((l.filterMap (fun e =>
        match e.typ with
        | TarType.dir => some (goJoin targetDir e.name, true)
        | TarType.reg => some (goJoin targetDir e.name, false)
        | TarType.other => none)).filter (fun w => !w.2)).map (fun w => w.1) =
      (l.filter (fun e => e.typ == TarType.reg)).map (fun e => goJoin targetDir e.name) := by
    intro l
    induction l with
    | nil => rfl
    | cons e rest ih =>
      rw [List.filterMap_cons, List.filter_cons]
      cases htyp : e.typ with
      | dir => simpa [htyp] using ih
      | reg => simpa [htyp] using ih
      | other => simpa [htyp] using ih
  rw [hmain es]
  exact List.Nodup.dedup hnd

/-- C5: with a fixed output filename and extraction, an archive whose
extraction succeeded and which contains exactly one regular file
(directory entries are irrelevant) is placed as `Join(targetDir, name)`;
zero regular files give the empty-archive error and two or more give the
distinct count error carrying the actual count.  Regular-file paths are
assumed pairwise distinct, so the files the walk finds on disk are
exactly the regular entries of the archive. -/
theorem single_file_mode_trichotomy (targetDir destDir fname : Str) (es : List TarEntry)
    (hok : (extractTarGo targetDir es).2 = none)
    (hnd : ((es.filter (fun e => e.typ == TarType.reg)).map
        (fun e => goJoin targetDir e.name)).Nodup) :
    ((es.filter (fun e => e.typ == TarType.reg)).length = 1 →
      singleFilePlace (regularFilesOnDisk targetDir es) destDir fname =
        .ok (goJoin destDir fname))
    ∧ ((es.filter (fun e => e.typ == TarType.reg)).length = 0 →
        singleFilePlace (regularFilesOnDisk targetDir es) destDir fname =
          .error .emptyArchive)
    ∧ (2 ≤ (es.filter (fun e => e.typ == TarType.reg)).length →
        singleFilePlace (regularFilesOnDisk targetDir es) destDir fname =
          .error (.unexpectedFileCount (es.filter (fun e => e.typ == TarType.reg)).length)) := by
  have heq := regularFilesOnDisk_eq targetDir es hok hnd
  have hlen : (regularFilesOnDisk targetDir es).length =
      (es.filter (fun e => e.typ == TarType.reg)).length := by
    rw [heq, List.length_map]
  refine ⟨?_, ?_, ?_⟩
  · intro h1
    unfold singleFilePlace
    rw [if_neg (by rw [hlen, h1]; omega)]
    have hone : ∃ f, regularFilesOnDisk targetDir es = [f] := by
      apply List.length_eq_one.mp
      rw [hlen, h1]
    rcases hone with ⟨f, hf⟩
    rw [hf]
  · intro h0
    unfold singleFilePlace
    rw [if_neg (by rw [hlen, h0]; omega)]
    have hz : regularFilesOnDisk targetDir es = [] := by
      apply List.length_eq_zero.mp
      rw [hlen, h0]
    rw [hz]
  · intro h2
    unfold singleFilePlace
    rw [if_pos (by rw [hlen]; omega), hlen]

/-- A tar archive with one directory and exactly one regular file, for
the C5 witness. -/
def oneFileTarList : List TarEntry :=
  [⟨str "bin", TarType.dir⟩, ⟨str "bin/tool", TarType.reg⟩]

theorem single_file_mode_trichotomy_witness :
    ((oneFileTarList.filter (fun e => e.typ == TarType.reg)).length = 1 →
      singleFilePlace (regularFilesOnDisk (str "tmp/extract_x") oneFileTarList)
          (str "bin") (str "tool") = .ok (goJoin (str "bin") (str "tool")))
    ∧ ((oneFileTarList.filter (fun e => e.typ == TarType.reg)).length = 0 →
      singleFilePlace (regularFilesOnDisk (str "tmp/extract_x") oneFileTarList)
          (str "bin") (str "tool") = .error .emptyArchive)
    ∧ (2 ≤ (oneFileTarList.filter (fun e => e.typ == TarType.reg)).length →
      singleFilePlace (regularFilesOnDisk (str "tmp/extract_x") oneFileTarList)
          (str "bin") (str "tool") =
        .error (.unexpectedFileCount
          (oneFileTarList.filter (fun e => e.typ == TarType.reg)).length)) :=
  single_file_mode_trichotomy (str "tmp/extract_x") (str "bin") (str "tool")
    oneFileTarList rfl (by decide)

/-- A node of the extracted file tree in the scratch directory:
the argument of the source-type placement code. -/
inductive FsNode where
  | file (nm : Str)
  | dir (nm : Str) (children : List FsNode)

/-- Does a top-level entry report `IsDir()`? -/
def FsNode.isDirEntry : FsNode → Bool
  | .file _ => false
  | .dir _ _ => true

mutual
/-- Final paths produced when a node is materialised under `base`:
the node itself at `Join(base, name)` and, for directories, the children
below it — exactly the paths touched by `filepath.Walk` plus
`os.MkdirAll`/`os.Rename` in the source placement code. -/
def nodeTargets (base : Str) : FsNode → List Str
  | .file nm => [goJoin base nm]
  | .dir nm cs => goJoin base nm :: forestTargets (goJoin base nm) cs

/-- Final paths produced when a list of sibling nodes is materialised
under `base`. -/
def forestTargets (base : Str) : List FsNode → List Str
  | [] => []
  | n :: ns => nodeTargets base n ++ forestTargets base ns
end

/-- Placement step of the source-type extraction in `installDependency`:
`os.ReadDir` yields the top-level entries of the scratch extraction
directory; if there is exactly one entry and it is a directory, its
contents are walked and rehomed one level up into the destination (the
wrapper folder itself is never created there); otherwise every top-level
entry is renamed into the destination as-is. -/
def placeSourceExtract (tops : List FsNode) (targetDir : Str) : List Str :=
  match tops with
  | [FsNode.dir _ cs] => forestTargets targetDir cs
  | _ => forestTargets targetDir tops

/-- C8: if the extracted archive has exactly one top-level entry and it
is a directory, the produced paths are those of its children rehomed
directly under the destination — the wrapper directory is stripped; in
every other case (several entries, or a single regular file) the
top-level entries are placed under the destination preserving their
structure. -/
theorem source_extract_strips_wrapper (targetDir nm : Str) (cs : List FsNode)
    (tops : List FsNode)
    (h : ∀ m ds, tops ≠ [FsNode.dir m ds]) :
    placeSourceExtract [FsNode.dir nm cs] targetDir = forestTargets targetDir cs
    ∧ placeSourceExtract tops targetDir = forestTargets targetDir tops := by
  constructor
  · rfl
  · unfold placeSourceExtract
    cases tops with
    | nil => rfl
    | cons t rest =>
      cases rest with
      | cons u us =>
        cases t with
        | file f => rfl
        | dir m ds => rfl
      | nil =>
        cases t with
        | file f => rfl
        | dir m ds => exact absurd rfl (h m ds)

theorem source_extract_strips_wrapper_witness :
    placeSourceExtract [FsNode.dir (str "owner-repo-abc123")
        [FsNode.dir (str "src") [FsNode.file (str "main.go")],
         FsNode.file (str "README.md")]] (str "sources/x") =
      forestTargets (str "sources/x")
        [FsNode.dir (str "src") [FsNode.file (str "main.go")],
         FsNode.file (str "README.md")]
    ∧ placeSourceExtract [FsNode.file (str "a.txt"), FsNode.file (str "b.txt")]
        (str "sources/x") =
      forestTargets (str "sources/x")
        [FsNode.file (str "a.txt"), FsNode.file (str "b.txt")] :=
  source_extract_strips_wrapper (str "sources/x") (str "owner-repo-abc123")
    [FsNode.dir (str "src") [FsNode.file (str "main.go")],
     FsNode.file (str "README.md")]
    [FsNode.file (str "a.txt"), FsNode.file (str "b.txt")]
    (by intro m ds hh; cases hh)

/-- Character class `[A-Z_]`, the first character of an environment
variable name in the pattern of `expandPathWithOptions`. -/
def identStart (c : Char) : Bool :=
  (decide ('A' ≤ c) && decide (c ≤ 'Z')) || c == '_'

/-- Character class `[A-Z0-9_]`, the continuation characters of an
environment variable name. -/
def identChar (c : Char) : Bool :=
  identStart c || (decide ('0' ≤ c) && decide (c ≤ '9'))

/-- Fuelled scanner of Go `strings.ReplaceAll s old new` (leftmost,
non-overlapping).  The fuel makes the recursion structural; with fuel at
least `s.length` it never runs out for a nonempty pattern, and all call
sites of the program use nonempty patterns. -/
def raF (old rep : Str) : Nat → Str → Str
  | _, [] => []
  | 0, s => s
  | fuel + 1, c :: s =>
    if old.isPrefixOf (c :: s) then rep ++ raF old rep fuel (s.drop (old.length - 1))
    else c :: raF old rep fuel s

/-- Model of Go `strings.ReplaceAll s old rep` for a nonempty pattern. -/
def goReplaceAll (s old rep : Str) : Str := raF old rep s.length s

theorem raF_fuel (old rep : Str) (_hold : old ≠ []) :
    ∀ (f : Nat), ∀ (s : Str) (g : Nat), s.length ≤ f → s.length ≤ g →
      raF old rep f s = raF old rep g s := by
  intro f
  induction f with
  | zero =>
    intro s g hf _
    have : s = [] := List.eq_nil_of_length_eq_zero (Nat.le_zero.mp hf)
    rw [this]
    cases g <;> rfl
  | succ f ih =>
    intro s g hf hg
    cases s with
    | nil => cases g <;> rfl
    | cons c s2 =>
      cases g with
      | zero => exact absurd hg (by simp)
      | succ g2 =>
        simp only [raF]
        by_cases hp : old.isPrefixOf (c :: s2) = true
        · rw [if_pos hp, if_pos hp]
          have hlen : (s2.drop (old.length - 1)).length ≤ f := by
            have := List.length_drop (old.length - 1) s2
            simp only [List.length_cons] at hf
            omega
          have hlen2 : (s2.drop (old.length - 1)).length ≤ g2 := by
            have := List.length_drop (old.length - 1) s2
            simp only [List.length_cons] at hg
            omega
          rw [ih (s2.drop (old.length - 1)) g2 hlen hlen2]
        · rw [if_neg hp, if_neg hp]
          have hlen : s2.length ≤ f := by
            simp only [List.length_cons] at hf
            omega
          have hlen2 : s2.length ≤ g2 := by
            simp only [List.length_cons] at hg
            omega
          rw [ih s2 g2 hlen hlen2]

theorem goReplaceAll_eq_raF (old rep : Str) (hold : old ≠ []) (s : Str)
    (f : Nat) (hf : s.length ≤ f) : goReplaceAll s old rep = raF old rep f s :=
  raF_fuel old rep hold s.length s f (Nat.le_refl _) hf

theorem goReplaceAll_cons_no_match (old rep : Str) (c : Char) (s : Str)
    (h : old.isPrefixOf (c :: s) = false) :
    goReplaceAll (c :: s) old rep = c :: goReplaceAll s old rep := by
  unfold goReplaceAll
  simp only [List.length_cons, raF]
  rw [if_neg (by rw [h]; simp)]

theorem isPrefixOf_append_self (l t : Str) : l.isPrefixOf (l ++ t) = true := by
  induction l with
  | nil => simp [List.isPrefixOf]
  | cons c l2 ih => simp [List.isPrefixOf, ih]

theorem goReplaceAll_head_match (old rep y : Str) (hold : old ≠ []) :
    goReplaceAll (old ++ y) old rep = rep ++ goReplaceAll y old rep := by
  cases old with
  | nil => exact absurd rfl hold
  | cons o os =>
    unfold goReplaceAll
    simp only [List.cons_append, List.length_cons]
    simp only [raF]
    rw [if_pos (by
      have hps := isPrefixOf_append_self (o :: os) y
      simp only [List.cons_append] at hps
      exact hps)]
    have hdrop : List.drop ((o :: os).length - 1) (os ++ y) = y := by
      simp only [List.length_cons, Nat.add_sub_cancel]
      exact List.drop_left os y
    rw [hdrop]
    rw [raF_fuel (o :: os) rep (by simp) (os ++ y).length y y.length
      (by simp) (Nat.le_refl _)]

theorem goReplaceAll_walk (nm rep y : Str) :
    ∀ (x : Str), '$' ∉ x →
      goReplaceAll (x ++ y) ('$' :: nm) rep = x ++ goReplaceAll y ('$' :: nm) rep := by
  intro x
  induction x with
  | nil => intro _; rfl
  | cons c x2 ih =>
    intro hd
    have hc : c ≠ '$' := by
      intro hh
      exact hd (by rw [hh]; exact List.mem_cons_self _ _)
    have hp : ('$' :: nm).isPrefixOf (c :: (x2 ++ y)) = false := by
      simp only [List.isPrefixOf]
      have : ('$' == c) = false := by
        simp only [beq_eq_false_iff_ne]
        exact fun hh => hc hh.symm
      rw [this]
      rfl
    rw [List.cons_append, goReplaceAll_cons_no_match _ _ _ _ hp,
      ih (fun hh => hd (List.mem_cons_of_mem c hh)), List.cons_append]

/-- One token of a template in the environment-variable pass: a literal
character or a matched `$NAME` occurrence. -/
inductive PTok where
  | lit (c : Char)
  | var (nm : Str)
deriving DecidableEq, Repr

/-- Fuelled scanner producing the token list of a template for the
pattern `\$([A-Z_][A-Z0-9_]*)` of `expandPathWithOptions`: at a `$`
followed by an identifier-start character, the maximal identifier run is
one match (Go regexp finds leftmost matches with a greedy character
class); any other character is a literal. -/
def tokF : Nat → Str → List PTok
  | _, [] => []
  | 0, _ :: _ => []
  | fuel + 1, c :: s =>
    if c = '$' then
      match s with
      | [] => [.lit '$']
      | d :: s2 =>
        if identStart d then
          .var (d :: s2.takeWhile identChar) :: tokF fuel (s2.dropWhile identChar)
        else .lit '$' :: tokF fuel s
    else .lit c :: tokF fuel s

/-- Tokenisation of a template (fuel `s.length` always suffices). -/
def tokenizeEnv (s : Str) : List PTok := tokF s.length s

/-- The name of a variable token, if any. -/
def varName? : PTok → Option Str
  | .var nm => some nm
  | .lit _ => none

/-- The list of environment variable names matched in a template, in
order of occurrence — the result of `FindAllStringSubmatch` in the
source (one entry per occurrence, duplicates included). -/
def envMatches (s : Str) : List Str := (tokenizeEnv s).filterMap varName?

/-- The environment-variable substitution loop of
`expandPathWithOptions`: matches are computed once on the input, then
each `$NAME` is globally replaced by `os.Getenv(NAME)` in sequence. -/
def envPass (getenv : Str → Str) (s : Str) : Str :=
  (envMatches s).foldl (fun acc nm => goReplaceAll acc ('$' :: nm) (getenv nm)) s

/-- The `@VERSION` placeholder string. -/
def verTok : Str := str "@VERSION"

/-- The `@TIMESTAMP` placeholder string. -/
def tsTok : Str := str "@TIMESTAMP"

/-- The `@ASSET_EXTENSION` placeholder string. -/
def extTok : Str := str "@ASSET_EXTENSION"

/-- The three `@`-placeholder passes of `expandPathWithOptions`, run
before the environment pass: `@VERSION` is replaced by the resolved
version, `@TIMESTAMP` by the formatted clock reading (a parameter here),
and `@ASSET_EXTENSION` by the extension, degraded to the empty string in
extract mode or when no extension is known. -/
def atSubst (path version timestamp assetExtension : Str) (extractMode : Bool) : Str :=
  let e1 := if goContains path verTok then goReplaceAll path verTok version else path
  let e2 := if goContains e1 tsTok then goReplaceAll e1 tsTok timestamp else e1
  if goContains e2 extTok then
    (if extractMode then goReplaceAll e2 extTok []
     else if assetExtension ≠ [] then goReplaceAll e2 extTok assetExtension
     else goReplaceAll e2 extTok [])
  else e2

/-- Model of `expandPathWithOptions`: the three `@` passes followed by
the environment pass.  Reading the clock and the process environment are
modelled by the `timestamp` and `getenv` parameters (`os.Getenv`
returns the empty string for an unset variable). -/
def goExpandPathWithOptions (path version assetExtension : Str) (extractMode : Bool)
    (getenv : Str → Str) (timestamp : Str) : Str :=
  envPass getenv (atSubst path version timestamp assetExtension extractMode)

/-- Model of `expandPath`, which the binary branch uses:
`expandPathWithOptions(path, version, "", false)`. -/
def goExpandPath (path version : Str) (getenv : Str → Str) (timestamp : Str) : Str :=
  goExpandPathWithOptions path version [] false getenv timestamp

/-- Flattening of a token back to its source text. -/
def flatTok : PTok → Str
  | .lit c => [c]
  | .var nm => '$' :: nm

/-- Flattening of a token list back to the source template. -/
def flatToks : List PTok → Str
  | [] => []
  | t :: ts => flatTok t ++ flatToks ts

/-- Rendering of one token with the variables in `done` already
substituted by their environment values. -/
def renderTok (getenv : Str → Str) (done : List Str) : PTok → Str
  | .lit c => [c]
  | .var nm => if nm ∈ done then getenv nm else '$' :: nm

/-- Rendering of a token list with the variables in `done` substituted. -/
def renderToks (getenv : Str → Str) (done : List Str) : List PTok → Str
  | [] => []
  | t :: ts => renderTok getenv done t ++ renderToks getenv done ts

/-- The fully substituted rendering of one token: literals unchanged,
every variable replaced by its environment value.  This is the
specification of independent, per-placeholder substitution. -/
def renderAllTok (getenv : Str → Str) : PTok → Str
  | .lit c => [c]
  | .var nm => getenv nm

/-- The fully substituted rendering of a token list. -/
def renderFinal (getenv : Str → Str) : List PTok → Str
  | [] => []
  | t :: ts => renderAllTok getenv t ++ renderFinal getenv ts

/-- Well-formedness of a token: a literal is not the `$` character and a
variable name is a nonempty identifier. -/
def tokWF : PTok → Bool
  | .lit c => !(c == '$')
  | .var nm =>
    match nm with
    | [] => false
    | d :: ds => identStart d && ds.all identChar

/-- No matched name is a prefix of another distinct matched name. -/
def namesPrefixFree (ns : List Str) : Prop :=
  ∀ m ∈ ns, ∀ n ∈ ns, m ≠ n → m.isPrefixOf n = false

instance (ns : List Str) : Decidable (namesPrefixFree ns) :=
  inferInstanceAs (Decidable (∀ m ∈ ns, ∀ n ∈ ns, m ≠ n → m.isPrefixOf n = false))

theorem tokF_fuel :
    ∀ (f : Nat), ∀ (s : Str) (g : Nat), s.length ≤ f → s.length ≤ g →
      tokF f s = tokF g s := by
  intro f
  induction f with
  | zero =>
    intro s g hf _
    have hs : s = [] := List.eq_nil_of_length_eq_zero (Nat.le_zero.mp hf)
    rw [hs]
    cases g <;> rfl
  | succ f ih =>
    intro s g hf hg
    cases s with
    | nil => cases g <;> rfl
    | cons c s1 =>
      cases g with
      | zero => exact absurd hg (by simp)
      | succ g1 =>
        simp only [tokF]
        by_cases hc : c = '$'
        · rw [if_pos hc, if_pos hc]
          cases s1 with
          | nil => rfl
          | cons d s2 =>
            simp only []
            by_cases hid : identStart d = true
            · rw [if_pos hid, if_pos hid]
              have hlen : (s2.dropWhile identChar).length ≤ f := by
                have hsb : List.Sublist (List.dropWhile identChar s2) s2 :=
                  List.dropWhile_sublist identChar
                have := hsb.length_le
                simp only [List.length_cons] at hf
                omega
              have hlen2 : (s2.dropWhile identChar).length ≤ g1 := by
                have hsb : List.Sublist (List.dropWhile identChar s2) s2 :=
                  List.dropWhile_sublist identChar
                have := hsb.length_le
                simp only [List.length_cons] at hg
                omega
              rw [ih (s2.dropWhile identChar) g1 hlen hlen2]
            · rw [if_neg hid, if_neg hid]
              have hlen : (d :: s2).length ≤ f := by
                simp only [List.length_cons] at hf ⊢
                omega
              have hlen2 : (d :: s2).length ≤ g1 := by
                simp only [List.length_cons] at hg ⊢
                omega
              rw [ih (d :: s2) g1 hlen hlen2]
        · rw [if_neg hc, if_neg hc]
          have hlen : s1.length ≤ f := by
            simp only [List.length_cons] at hf
            omega
          have hlen2 : s1.length ≤ g1 := by
            simp only [List.length_cons] at hg
            omega
          rw [ih s1 g1 hlen hlen2]

theorem flatToks_tokF (f : Nat) :
    ∀ (s : Str), s.length ≤ f → flatToks (tokF f s) = s := by
  induction f with
  | zero =>
    intro s hf
    have hs : s = [] := List.eq_nil_of_length_eq_zero (Nat.le_zero.mp hf)
    rw [hs]
    rfl
  | succ f ih =>
    intro s hf
    cases s with
    | nil => rfl
    | cons c s1 =>
      simp only [tokF]
      by_cases hc : c = '$'
      · rw [if_pos hc]
        cases s1 with
        | nil => rw [hc]; rfl
        | cons d s2 =>
          simp only []
          by_cases hid : identStart d = true
          · rw [if_pos hid]
            have hlen : (s2.dropWhile identChar).length ≤ f := by
              have hsb : List.Sublist (List.dropWhile identChar s2) s2 := List.dropWhile_sublist identChar
              have := hsb.length_le
              simp only [List.length_cons] at hf
              omega
            simp only [flatToks, flatTok]
            rw [ih (s2.dropWhile identChar) hlen, hc]
            simp only [List.cons_append]
            rw [List.takeWhile_append_dropWhile identChar s2]
          · rw [if_neg hid]
            have hlen : (d :: s2).length ≤ f := by
              simp only [List.length_cons] at hf ⊢
              omega
            simp only [flatToks, flatTok]
            rw [ih (d :: s2) hlen, hc]
            rfl
      · rw [if_neg hc]
        have hlen : s1.length ≤ f := by
          simp only [List.length_cons] at hf
          omega
        simp only [flatToks, flatTok]
        rw [ih s1 hlen]
        rfl

theorem flatToks_tokenizeEnv (s : Str) : flatToks (tokenizeEnv s) = s :=
  flatToks_tokF s.length s (Nat.le_refl _)

theorem dollar_not_mem_var (m : Str) (h : tokWF (PTok.var m) = true) : '$' ∉ m := by
  cases m with
  | nil => simp
  | cons d ds =>
    simp only [tokWF, Bool.and_eq_true] at h
    intro hmem
    rcases List.mem_cons.mp hmem with hh | ht
    · rw [← hh] at h
      exact absurd h.1 (by decide)
    · have := (List.all_eq_true.mp h.2) '$' ht
      exact absurd this (by decide)

theorem not_isPrefixOf_of_free (nm m rest : Str)
    (h1 : nm.isPrefixOf m = false) (h2 : m.isPrefixOf nm = false) :
    nm.isPrefixOf (m ++ rest) = false := by
  cases hb : nm.isPrefixOf (m ++ rest) with
  | false => rfl
  | true =>
    exfalso
    have hp : nm <+: m ++ rest := List.isPrefixOf_iff_prefix.mp hb
    rcases Nat.le_total nm.length m.length with hle | hle2
    · have hpm : nm <+: m :=
        List.prefix_of_prefix_length_le hp (List.prefix_append m rest) hle
      rw [ List.isPrefixOf_iff_prefix.mpr hpm] at h1
      exact Bool.noConfusion h1
    · have hpm : m <+: nm :=
        List.prefix_of_prefix_length_le (List.prefix_append m rest) hp hle2
      rw [ List.isPrefixOf_iff_prefix.mpr hpm] at h2
      exact Bool.noConfusion h2

theorem replace_renders (getenv : Str → Str) (N : List Str)
    (hfree : namesPrefixFree N)
    (hval : ∀ n ∈ N, '$' ∉ getenv n)
    (nm : Str) (hnm : nm ∈ N) (done : List Str) :
    ∀ (ts : List PTok), (∀ t ∈ ts, tokWF t = true) →
      (∀ n ∈ ts.filterMap varName?, n ∈ N) →
      goReplaceAll (renderToks getenv done ts) ('$' :: nm) (getenv nm)
        = renderToks getenv (nm :: done) ts := by
  intro ts
  induction ts with
  | nil => intro _ _; rfl
  | cons t ts2 ih =>
    intro hwf hsub
    have hwf2 : ∀ x ∈ ts2, tokWF x = true :=
      fun x hx => hwf x (List.mem_cons_of_mem t hx)
    have hsub2 : ∀ n ∈ ts2.filterMap varName?, n ∈ N := by
      intro n hn
      apply hsub
      rw [List.filterMap_cons]
      cases varName? t with
      | none => exact hn
      | some v => exact List.mem_cons_of_mem v hn
    cases t with
    | lit c =>
      have hc : (c == '$') = false := by
        have hw := hwf (.lit c) (List.mem_cons_self _ _)
        simp only [tokWF, Bool.not_eq_true'] at hw
        exact hw
      have hp : ('$' :: nm).isPrefixOf (c :: renderToks getenv done ts2) = false := by
        simp only [List.isPrefixOf]
        have hbc : ('$' == c) = false := by
          simp only [beq_eq_false_iff_ne] at hc ⊢
          exact fun hh => hc hh.symm
        rw [hbc]
        rfl
      simp only [renderToks, renderTok, List.singleton_append]
      rw [goReplaceAll_cons_no_match _ _ _ _ hp, ih hwf2 hsub2]
    | var m =>
      have hmN : m ∈ N := hsub m (by
        rw [List.filterMap_cons]
        exact List.mem_cons_self _ _)
      by_cases hmdone : m ∈ done
      · simp only [renderToks, renderTok, if_pos hmdone,
          if_pos (List.mem_cons_of_mem nm hmdone)]
        rw [goReplaceAll_walk nm (getenv nm) (renderToks getenv done ts2)
          (getenv m) (hval m hmN)]
        rw [ih hwf2 hsub2]
      · by_cases hmnm : m = nm
        · subst hmnm
          simp only [renderToks, renderTok, if_neg hmdone,
            if_pos (List.mem_cons_self m done)]
          rw [show ('$' :: m) ++ renderToks getenv done ts2
              = ('$' :: m) ++ renderToks getenv done ts2 from rfl]
          rw [goReplaceAll_head_match ('$' :: m) (getenv m)
            (renderToks getenv done ts2) (by simp)]
          rw [ih hwf2 hsub2]
        · have h1 : nm.isPrefixOf m = false :=
            hfree nm hnm m hmN (fun hh => hmnm hh.symm)
          have h2 : m.isPrefixOf nm = false := hfree m hmN nm hnm hmnm
          have hp : ('$' :: nm).isPrefixOf
              ('$' :: (m ++ renderToks getenv done ts2)) = false := by
            simp only [List.isPrefixOf, beq_self_eq_true, Bool.true_and]
            exact not_isPrefixOf_of_free nm m (renderToks getenv done ts2) h1 h2
          have hmem : m ∈ nm :: done → False := by
            intro hh
            rcases List.mem_cons.mp hh with hx | hx
            · exact hmnm hx
            · exact hmdone hx
          simp only [renderToks, renderTok, if_neg hmdone, if_neg hmem,
            List.cons_append]
          rw [goReplaceAll_cons_no_match _ _ _ _ hp]
          rw [goReplaceAll_walk nm (getenv nm) (renderToks getenv done ts2) m
            (dollar_not_mem_var m (hwf (.var m) (List.mem_cons_self _ _)))]
          rw [ih hwf2 hsub2]

theorem fold_renders (getenv : Str → Str) (N : List Str)
    (hfree : namesPrefixFree N) (hval : ∀ n ∈ N, '$' ∉ getenv n)
    (ts : List PTok) (hwf : ∀ t ∈ ts, tokWF t = true)
    (hsub : ∀ n ∈ ts.filterMap varName?, n ∈ N) :
    ∀ (ms : List Str), (∀ n ∈ ms, n ∈ N) → ∀ (done : List Str),
      ms.foldl (fun acc nm => goReplaceAll acc ('$' :: nm) (getenv nm))
        (renderToks getenv done ts)
        = renderToks getenv (ms.reverse ++ done) ts := by
  intro ms
  induction ms with
  | nil => intro _ done; simp
  | cons nm ms2 ih =>
    intro hms done
    rw [List.foldl_cons]
    rw [replace_renders getenv N hfree hval nm (hms nm (List.mem_cons_self _ _))
      done ts hwf hsub]
    rw [ih (fun n hn => hms n (List.mem_cons_of_mem _ hn)) (nm :: done)]
    have hl : ms2.reverse ++ (nm :: done) = (nm :: ms2).reverse ++ done := by
      simp
    rw [hl]

theorem renderToks_nil_done (getenv : Str → Str) :
    ∀ (ts : List PTok), renderToks getenv [] ts = flatToks ts := by
  intro ts
  induction ts with
  | nil => rfl
  | cons t ts2 ih =>
    cases t with
    | lit c =>
      simp only [renderToks, renderTok, flatToks, flatTok]
      rw [ih]
    | var m =>
      simp only [renderToks, renderTok, flatToks, flatTok]
      rw [if_neg (List.not_mem_nil m), ih]

theorem renderToks_all_done (getenv : Str → Str) (done : List Str) :
    ∀ (ts : List PTok), (∀ n ∈ ts.filterMap varName?, n ∈ done) →
      renderToks getenv done ts = renderFinal getenv ts := by
  intro ts
  induction ts with
  | nil => intro _; rfl
  | cons t ts2 ih =>
    intro hsub
    have hsub2 : ∀ n ∈ ts2.filterMap varName?, n ∈ done := by
      intro n hn
      apply hsub
      rw [List.filterMap_cons]
      cases varName? t with
      | none => exact hn
      | some v => exact List.mem_cons_of_mem v hn
    cases t with
    | lit c =>
      simp only [renderToks, renderTok, renderFinal, renderAllTok]
      rw [ih hsub2]
    | var m =>
      have hm : m ∈ done := hsub m (by
        rw [List.filterMap_cons]
        exact List.mem_cons_self _ _)
      simp only [renderToks, renderTok, renderFinal, renderAllTok]
      rw [if_pos hm, ih hsub2]

/-- When the matched variable names of the template are prefix-free and
the substituted values contain no `$`, the sequential replacement loop
of the environment pass coincides with independent per-token
substitution. -/
theorem envPass_renders (getenv : Str → Str) (s : Str)
    (hwf : ∀ t ∈ tokenizeEnv s, tokWF t = true)
    (hfree : namesPrefixFree (envMatches s))
    (hval : ∀ n ∈ envMatches s, '$' ∉ getenv n) :
    envPass getenv s = renderFinal getenv (tokenizeEnv s) := by
  unfold envPass
  have hstart : s = renderToks getenv [] (tokenizeEnv s) := by
    rw [renderToks_nil_done, flatToks_tokenizeEnv]
  have h1 : (envMatches s).foldl
      (fun acc nm => goReplaceAll acc ('$' :: nm) (getenv nm)) s
      = (envMatches s).foldl
      (fun acc nm => goReplaceAll acc ('$' :: nm) (getenv nm))
      (renderToks getenv [] (tokenizeEnv s)) := by
    rw [← hstart]
  rw [h1]
  rw [fold_renders getenv (envMatches s) hfree hval (tokenizeEnv s) hwf
    (fun n hn => hn) (envMatches s) (fun n hn => hn) []]
  apply renderToks_all_done
  intro n hn
  rw [List.append_nil, List.mem_reverse]
  exact hn

/-- C6 amended: when the matched environment variable names of the
expanded template are prefix-free, every literal is a genuine literal
(no stray `$`), and the substituted values contain no `$`, path
expansion equals independent per-placeholder substitution for both
environments; hence changing the value of one variable `E` leaves the
`@VERSION` substitution (performed before the environment pass, on the
same `getenv`-independent intermediate string `s`), the substitution of
every other variable, and all literal text unchanged — only the tokens
of `E` itself render differently. -/
theorem env_expansion_independent (path version assetExtension timestamp : Str)
    (extractMode : Bool) (getenv getenv2 : Str → Str) (E : Str) (s : Str)
    (hs : s = atSubst path version timestamp assetExtension extractMode)
    (hwf : ∀ t ∈ tokenizeEnv s, tokWF t = true)
    (hfree : namesPrefixFree (envMatches s))
    (hval : ∀ n ∈ envMatches s, '$' ∉ getenv n)
    (hval2 : ∀ n ∈ envMatches s, '$' ∉ getenv2 n)
    (hagree : ∀ n ∈ envMatches s, n ≠ E → getenv n = getenv2 n) :
    goExpandPathWithOptions path version assetExtension extractMode getenv timestamp
      = renderFinal getenv (tokenizeEnv s)
    ∧ goExpandPathWithOptions path version assetExtension extractMode getenv2 timestamp
      = renderFinal getenv2 (tokenizeEnv s)
    ∧ (∀ t ∈ tokenizeEnv s, t ≠ PTok.var E →
        renderAllTok getenv t = renderAllTok getenv2 t) := by
  refine ⟨?_, ?_, ?_⟩
  · unfold goExpandPathWithOptions
    rw [← hs]
    exact envPass_renders getenv s hwf hfree hval
  · unfold goExpandPathWithOptions
    rw [← hs]
    exact envPass_renders getenv2 s hwf hfree hval2
  · intro t ht hne
    cases t with
    | lit c => rfl
    | var m =>
      have hm : m ∈ envMatches s := by
        unfold envMatches
        exact List.mem_filterMap.mpr ⟨.var m, ht, rfl⟩
      have hmE : m ≠ E := fun hh => hne (by rw [hh])
      simp only [renderAllTok]
      exact hagree m hm hmE

/-- Environment of the C6 counterexample: `FOO` is `x`, `FOOBAR` is `z`. -/
def envFooX : Str → Str := fun n =>
  if n = str "FOO" then str "x" else if n = str "FOOBAR" then str "z" else []

/-- Environment of the C6 counterexample with only `FOO` changed to `y`. -/
def envFooY : Str → Str := fun n =>
  if n = str "FOO" then str "y" else if n = str "FOOBAR" then str "z" else []

/-- C6 counterexample: on the template `$FOO $FOOBAR` the sequential
`ReplaceAll` loop lets the replacement of `$FOO` consume the prefix of
the distinct placeholder `$FOOBAR`, so the output is `x xBAR` instead of
the independent substitution `x z`; and changing only `FOO` (to `y`)
changes the text standing where `$FOOBAR` stood (`xBAR` versus `yBAR`,
the output from position 2 on) although `FOOBAR`'s value is identical in
both environments.  Both failure modes refute the claimed independence. -/
theorem env_expansion_interference_cex :
    goExpandPathWithOptions (str "$FOO $FOOBAR") (str "v") [] false envFooX (str "0")
      = str "x xBAR"
    ∧ goExpandPathWithOptions (str "$FOO $FOOBAR") (str "v") [] false envFooY (str "0")
      = str "y yBAR"
    ∧ envFooX (str "FOOBAR") = envFooY (str "FOOBAR")
    ∧ renderFinal envFooX (tokenizeEnv (str "$FOO $FOOBAR")) = str "x z"
    ∧ str "x xBAR" ≠ str "x z"
    ∧ List.drop 2 (str "x xBAR") ≠ List.drop 2 (str "y yBAR") :=
  ⟨rfl, rfl, rfl, rfl, by decide, by decide⟩

/-- Environment of the C6 witness mapping `TARGET_ARCH` to `amd64`. -/
def envArchA : Str → Str := fun n =>
  if n = str "TARGET_ARCH" then str "amd64" else []

/-- Environment of the C6 witness mapping `TARGET_ARCH` to `arm64`. -/
def envArchB : Str → Str := fun n =>
  if n = str "TARGET_ARCH" then str "arm64" else []

theorem env_expansion_independent_witness :
    goExpandPathWithOptions (str "bin/$TARGET_ARCH/@VERSION") (str "1.2") [] false
      envArchA (str "99")
      = renderFinal envArchA (tokenizeEnv
          (atSubst (str "bin/$TARGET_ARCH/@VERSION") (str "1.2") (str "99") [] false))
    ∧ goExpandPathWithOptions (str "bin/$TARGET_ARCH/@VERSION") (str "1.2") [] false
      envArchB (str "99")
      = renderFinal envArchB (tokenizeEnv
          (atSubst (str "bin/$TARGET_ARCH/@VERSION") (str "1.2") (str "99") [] false))
    ∧ (∀ t ∈ tokenizeEnv
          (atSubst (str "bin/$TARGET_ARCH/@VERSION") (str "1.2") (str "99") [] false),
        t ≠ PTok.var (str "TARGET_ARCH") →
        renderAllTok envArchA t = renderAllTok envArchB t) :=
  env_expansion_independent (str "bin/$TARGET_ARCH/@VERSION") (str "1.2") []
    (str "99") false envArchA envArchB (str "TARGET_ARCH")
    (atSubst (str "bin/$TARGET_ARCH/@VERSION") (str "1.2") (str "99") [] false)
    rfl (by decide) (by decide) (by decide) (by decide) (by decide)

/-- C7: path expansion is a total function of its inputs (the model
returns a string for every template, by construction, mirroring the
error-free signature of `expandPathWithOptions`); the `@ASSET_EXTENSION`
placeholder degrades to the empty substitution both when extract mode is
set — whatever extension is passed — and when no extension is known; and
under the rendering hypotheses a matched environment variable `E` whose
value is unset (`os.Getenv` yields the empty string) contributes exactly
the empty string to the expanded output. -/
theorem expansion_total_and_degrades (path version assetExtension timestamp : Str)
    (getenv : Str → Str)
    (hwf : ∀ t ∈ tokenizeEnv (atSubst path version timestamp [] false), tokWF t = true)
    (hfree : namesPrefixFree (envMatches (atSubst path version timestamp [] false)))
    (hval : ∀ n ∈ envMatches (atSubst path version timestamp [] false), '$' ∉ getenv n)
    (E : Str) (hE : E ∈ envMatches (atSubst path version timestamp [] false))
    (hunset : getenv E = []) :
    goExpandPathWithOptions path version assetExtension true getenv timestamp
      = goExpandPathWithOptions path version [] false getenv timestamp
    ∧ goExpandPathWithOptions path version [] false getenv timestamp
      = renderFinal getenv (tokenizeEnv (atSubst path version timestamp [] false))
    ∧ PTok.var E ∈ tokenizeEnv (atSubst path version timestamp [] false)
    ∧ renderAllTok getenv (PTok.var E) = [] := by
  refine ⟨rfl, ?_, ?_, ?_⟩
  · unfold goExpandPathWithOptions
    exact envPass_renders getenv _ hwf hfree hval
  · unfold envMatches at hE
    rcases List.mem_filterMap.mp hE with ⟨t, ht, hname⟩
    cases t with
    | lit c => exact absurd hname (by simp [varName?])
    | var m =>
      have hmE : m = E := by
        simpa [varName?] using hname
      rw [← hmE]
      exact ht
  · simp only [renderAllTok]
    exact hunset

/-- Environment of the C7 witness: every variable is unset. -/
def envEmpty : Str → Str := fun _ => []

theorem expansion_total_and_degrades_witness :
    goExpandPathWithOptions (str "a/$UNSET_VAR/b") (str "1.0") (str "zip") true
      envEmpty (str "7")
      = goExpandPathWithOptions (str "a/$UNSET_VAR/b") (str "1.0") [] false
        envEmpty (str "7")
    ∧ goExpandPathWithOptions (str "a/$UNSET_VAR/b") (str "1.0") [] false
      envEmpty (str "7")
      = renderFinal envEmpty (tokenizeEnv
          (atSubst (str "a/$UNSET_VAR/b") (str "1.0") (str "7") [] false))
    ∧ PTok.var (str "UNSET_VAR") ∈ tokenizeEnv
        (atSubst (str "a/$UNSET_VAR/b") (str "1.0") (str "7") [] false)
    ∧ renderAllTok envEmpty (PTok.var (str "UNSET_VAR")) = [] :=
  expansion_total_and_degrades (str "a/$UNSET_VAR/b") (str "1.0") (str "zip")
    (str "7") envEmpty (by decide) (by decide) (by decide)
    (str "UNSET_VAR") (by decide) rfl

end GlitchDeps
